import Mathlib

/-!
Shallow embedding of the peer-to-peer transport core of `src/net.cpp`
(repository Axxa4/zen), together with theorems settling the frozen claims
about it.

Conventions:
* machine integers are `Nat`/`Int`; where 32-bit wraparound matters it is
  written explicitly with `% 2^32`;
* raw network bytes are `Nat` values (a byte stream is a `List Nat`; the
  header decoder masks with `% 256` exactly where the C code reinterprets
  raw chars as unsigned bytes);
* external collaborators that are not part of `src/` (the SHA256 keyed
  hash, the TLS manager, the address-manager serializer, `GetRand`) enter
  the model as parameters, each documented where introduced.
-/

namespace Zen

/-! ## Message framer (CNode::ReceiveMsgBytes, CNetMessage::readHeader/readData) -/

/-- Little-endian decoding of the first four bytes of a buffer, as the
`CMessageHeader` deserializer reads `nMessageSize` from bytes 16..19 of the
24-byte header buffer.  Values are masked to bytes, mirroring the
reinterpretation of raw chars as unsigned bytes. -/
def decodeLE32 : List Nat → Nat
  | b0 :: b1 :: b2 :: b3 :: _ =>
      b0 % 256 + 256 * (b1 % 256) + 65536 * (b2 % 256) + 16777216 * (b3 % 256)
  | _ => 0

/-- Little-endian encoding of a 32-bit value into four bytes. -/
def le32enc (n : Nat) : List Nat :=
  [n % 256, n / 256 % 256, n / 65536 % 256, n / 16777216 % 256]

/-- One in-progress network frame, the observable state of a `CNetMessage`
(net.cpp): the accumulated header bytes (`hdrbuf`/`nHdrPos`), the
header-versus-payload state flag `in_data`, the declared payload size
`hdr.nMessageSize` (meaningful once `in_data` is set), and the payload bytes
received so far (`vRecv`/`nDataPos`; the capped 256 KiB look-ahead
preallocation of `vRecv` is unobservable and not modelled). -/
structure CNetMessage where
  hdrBytes : List Nat
  in_data : Bool
  nMessageSize : Nat
  payload : List Nat
deriving DecidableEq

/-- A freshly constructed `CNetMessage`: empty header buffer, reading-header
state. -/
def freshMsg : CNetMessage := ⟨[], false, 0, []⟩

/-- Modelled from the spec: `CNetMessage::complete()` (declared in net.h,
which is not under src/): "a frame is complete only once header and
declared-length payload bytes have both been received". -/
def CNetMessage.complete (m : CNetMessage) : Bool :=
  m.in_data && m.payload.length == m.nMessageSize

/-- Embedding of `CNetMessage::readHeader` (net.cpp:706-735): copy up to the 24-byte
header boundary, and once the header is full decode the declared payload
length (bytes 16..19, little endian) and reject it when it exceeds
`MAX_SERIALIZED_COMPACT_SIZE` (the `maxCompact` parameter; the constant's
definition lives in serialize.h, outside src/).  Returns the updated message
and the number of bytes handled, or `none` for the C `-1` failure. -/
def readHeader (maxCompact : Nat) (m : CNetMessage) (input : List Nat) :
    Option (CNetMessage × Nat) :=
  let nRemaining := 24 - m.hdrBytes.length
  let nCopy := min nRemaining input.length
  let hb := m.hdrBytes ++ input.take nCopy
  if hb.length < 24 then some ({ m with hdrBytes := hb }, nCopy)
  else
    let sz := decodeLE32 (hb.drop 16)
    if maxCompact < sz then none
    else some ({ m with hdrBytes := hb, in_data := true, nMessageSize := sz }, nCopy)

/-- Embedding of `CNetMessage::readData` (net.cpp:737-751): copy up to the declared
payload length.  `nRemaining` is the C unsigned subtraction
`hdr.nMessageSize - nDataPos`; in every state the loop constructs,
`nDataPos ≤ nMessageSize`, so plain `Nat` subtraction coincides with it. -/
def readData (m : CNetMessage) (input : List Nat) : CNetMessage × Nat :=
  let nRemaining := m.nMessageSize - m.payload.length
  let nCopy := min nRemaining input.length
  ({ m with payload := m.payload ++ input.take nCopy }, nCopy)

/-- One iteration of the `CNode::ReceiveMsgBytes` loop body
(net.cpp:669-700): append a fresh frame when the queue is empty or its last
frame is complete, feed the input to `readHeader` or `readData` according to
the frame state, fail on a header failure, and fail when the completed
header declares more than `MAX_PROTOCOL_MESSAGE_LENGTH` bytes (the
`maxProto` parameter; the constant is defined in protocol.h, outside src/).
Returns the updated queue and the byte count handled. -/
def receiveStep (maxCompact maxProto : Nat) (input : List Nat)
    (msgs : List CNetMessage) : Option (List CNetMessage × Nat) :=
  let msgs1 := if msgs.getLast?.all CNetMessage.complete
               then msgs ++ [freshMsg] else msgs
  let front := msgs1.dropLast
  let m := msgs1.getLastD freshMsg
  match (if m.in_data then some (readData m input) else readHeader maxCompact m input) with
  | none => none
  | some (m', handled) =>
      if m'.in_data && decide (maxProto < m'.nMessageSize) then none
      else some (front ++ [m'], handled)

/-- Embedding of `CNode::ReceiveMsgBytes` (net.cpp:667-704): run the loop until the input
is exhausted, threading the receive queue `vRecvMsg`.  `none` is the C
`return false` (the connection must be torn down).  The completion side
effects (timestamping, byte accounting, waking the dispatch loop) do not
touch the queue and are not modelled.  A step that handles zero bytes would
make the C loop spin forever; no reachable state produces one, and the model
maps that case to failure. -/
def receiveMsgBytes (maxCompact maxProto : Nat) :
    List Nat → List CNetMessage → Option (List CNetMessage)
  | [], msgs => some msgs
  | b :: rest, msgs =>
      match receiveStep maxCompact maxProto (b :: rest) msgs with
      | none => none
      | some (msgs', handled) =>
          if h0 : handled = 0 then none
          else receiveMsgBytes maxCompact maxProto ((b :: rest).drop handled) msgs'
termination_by input _ => input.length
decreasing_by
  simp only [List.length_drop, List.length_cons]
  omega

/-- The 24-byte wire header with declared payload length `L`: 16 leading
bytes (4-byte network magic plus 12-byte command name), the 4-byte
little-endian length, and 4 trailing checksum bytes. -/
def mkHeader (pre : List Nat) (L : Nat) (post : List Nat) : List Nat :=
  pre ++ le32enc L ++ post

/-- The receive queue after the framer has consumed exactly `k` bytes of the
canonical stream `mkHeader pre L post ++ payload`: empty before the first
byte, a single header-partial frame while `k < 24`, and a single
payload-partial frame afterwards. -/
def canonState (pre : List Nat) (L : Nat) (post payload : List Nat) (k : Nat) :
    List CNetMessage :=
  if k = 0 then []
  else if k < 24 then [⟨(mkHeader pre L post).take k, false, 0, []⟩]
  else [⟨mkHeader pre L post, true, L, payload.take (k - 24)⟩]

theorem decodeLE32_le32enc (n : Nat) (rest : List Nat) :
    decodeLE32 (le32enc n ++ rest) = n % 2 ^ 32 := by
  simp only [le32enc, List.cons_append, List.nil_append, decodeLE32, Nat.mod_mod]
  omega

theorem mkHeader_length (pre : List Nat) (L : Nat) (post : List Nat)
    (hpre : pre.length = 16) (hpost : post.length = 4) :
    (mkHeader pre L post).length = 24 := by
  simp [mkHeader, le32enc, hpre, hpost]

/-- Unfolding of one pass of the `ReceiveMsgBytes` loop on a nonempty
input. -/
theorem receiveMsgBytes_cons_step (maxCompact maxProto : Nat)
    (input : List Nat) (msgs : List CNetMessage) (h : input ≠ []) :
    receiveMsgBytes maxCompact maxProto input msgs =
      match receiveStep maxCompact maxProto input msgs with
      | none => none
      | some (msgs', handled) =>
          if handled = 0 then none
          else receiveMsgBytes maxCompact maxProto (input.drop handled) msgs' := by
  obtain ⟨b, rest, rfl⟩ := List.exists_cons_of_ne_nil h
  rw [receiveMsgBytes]
  rcases receiveStep maxCompact maxProto (b :: rest) msgs with _ | ⟨msgs', handled⟩
  · rfl
  · by_cases h0 : handled = 0 <;> simp [h0]

/-- How far the current frame is from its next boundary when `k` bytes of
the canonical stream have been consumed: the end of the 24-byte header, or
the end of the declared payload. -/
def canonNeed (L k : Nat) : Nat :=
  if k < 24 then 24 - k else 24 + L - k

/-- One pass of the loop from the canonical state consumes
`min (canonNeed L k) c.length` bytes of the chunk and advances the
canonical state by exactly that amount. -/
theorem receiveStep_canon (maxCompact maxProto : Nat)
    (pre post payload : List Nat) (L : Nat)
    (hpre : pre.length = 16) (hpost : post.length = 4)
    (hpay : payload.length = L) (hL32 : L < 2 ^ 32)
    (hLp : L ≤ maxProto) (hpc : maxProto ≤ maxCompact)
    (k : Nat) (c : List Nat) (hk : k < 24 + L) (hc : c ≠ [])
    (hseg : ∃ r, c ++ r = (mkHeader pre L post ++ payload).drop k) :
    receiveStep maxCompact maxProto c (canonState pre L post payload k) =
      some (canonState pre L post payload (k + min (canonNeed L k) c.length),
            min (canonNeed L k) c.length) := by
  obtain ⟨r, hr⟩ := hseg
  have hhdr : (mkHeader pre L post).length = 24 := mkHeader_length pre L post hpre hpost
  have hstream : (mkHeader pre L post ++ payload).length = 24 + L := by
    simp [hhdr, hpay]
  have hclen : c.length ≤ 24 + L - k := by
    have := congrArg List.length hr
    simp [hstream] at this
    omega
  have hcpos : 1 ≤ c.length := by
    cases c with
    | nil => exact absurd rfl hc
    | cons x xs => simp
  -- the chunk is the next segment of the stream
  have hctake : ∀ j, j ≤ c.length →
      c.take j = ((mkHeader pre L post ++ payload).drop k).take j := by
    intro j hj
    rw [← hr, List.take_append_of_le_length hj]
  by_cases hk24 : k < 24
  · -- still reading the header
    set nCopy := min (24 - k) c.length with hnc
    have hncpos : 1 ≤ nCopy := by
      have : 1 ≤ 24 - k := by omega
      exact le_min this hcpos
    have hnc24 : k + nCopy ≤ 24 := by omega
    -- the raw bytes appended to the header buffer
    have htake : (mkHeader pre L post).take k ++ c.take nCopy =
        (mkHeader pre L post).take (k + nCopy) := by
      rw [hctake nCopy (min_le_right _ _)]
      have h1 : ((mkHeader pre L post ++ payload).drop k).take nCopy =
          (((mkHeader pre L post).drop k) ++ payload).take nCopy := by
        rw [List.drop_append_of_le_length (by omega)]
      rw [h1, List.take_append_of_le_length (by simp [hhdr]; omega),
        ← List.take_add]
    have hmsg : canonState pre L post payload k =
        (if k = 0 then [] else [⟨(mkHeader pre L post).take k, false, 0, []⟩]) := by
      simp [canonState, hk24]
    -- unfold one step
    rw [hmsg]
    have hfront :
        receiveStep maxCompact maxProto c
            (if k = 0 then [] else [⟨(mkHeader pre L post).take k, false, 0, []⟩]) =
          match readHeader maxCompact ⟨(mkHeader pre L post).take k, false, 0, []⟩ c with
          | none => none
          | some (m', handled) =>
              if m'.in_data && decide (maxProto < m'.nMessageSize) then none
              else some ([m'], handled) := by
      by_cases h0 : k = 0
      · subst h0
        simp [receiveStep, freshMsg]
      · simp [receiveStep, CNetMessage.complete, h0, freshMsg]
    rw [hfront]
    have hlen_take : ((mkHeader pre L post).take k).length = k := by
      simp [hhdr]; omega
    by_cases hfull : k + nCopy < 24
    · -- header still incomplete after this pass
      have hltlen : ((mkHeader pre L post).take (k + nCopy)).length < 24 := by
        simp only [List.length_take, hhdr]
        omega
      have : readHeader maxCompact ⟨(mkHeader pre L post).take k, false, 0, []⟩ c =
          some (⟨(mkHeader pre L post).take (k + nCopy), false, 0, []⟩, nCopy) := by
        simp only [readHeader, hlen_take, ← hnc, htake]
        rw [if_pos hltlen]
      rw [this]
      simp only [Bool.false_and, Bool.false_eq_true, if_false]
      have hcanon : canonState pre L post payload (k + nCopy) =
          [⟨(mkHeader pre L post).take (k + nCopy), false, 0, []⟩] := by
        simp [canonState, hfull]
        omega
      rw [canonNeed, if_pos hk24, ← hnc, hcanon]
    · -- this pass completes the header; the declared length decodes to L
      have hfull' : k + nCopy = 24 := by omega
      have htake24 : (mkHeader pre L post).take (k + nCopy) = mkHeader pre L post := by
        rw [hfull']
        exact List.take_of_length_le (by omega)
      have hdecode : decodeLE32 ((mkHeader pre L post).drop 16) = L := by
        have : (mkHeader pre L post).drop 16 = le32enc L ++ post := by
          rw [mkHeader, List.append_assoc] at *
          exact List.drop_left' hpre
        rw [this, decodeLE32_le32enc, Nat.mod_eq_of_lt hL32]
      have : readHeader maxCompact ⟨(mkHeader pre L post).take k, false, 0, []⟩ c =
          some (⟨mkHeader pre L post, true, L, []⟩, nCopy) := by
        simp only [readHeader, hlen_take, ← hnc, htake, htake24]
        rw [if_neg (by omega), hdecode, if_neg (by omega)]
      rw [this]
      have : decide (maxProto < L) = false := by simp; omega
      simp only [this, Bool.true_and, Bool.false_eq_true, if_false]
      have hcanon : canonState pre L post payload (k + nCopy) =
          [⟨mkHeader pre L post, true, L, []⟩] := by
        simp [canonState, hfull']
      rw [canonNeed, if_pos hk24, ← hnc, hcanon]
  · -- reading the payload
    have hk24' : 24 ≤ k := by omega
    set nCopy := min (24 + L - k) c.length with hnc
    have hncpos : 1 ≤ nCopy := by
      have : 1 ≤ 24 + L - k := by omega
      exact le_min this hcpos
    have hmsg : canonState pre L post payload k =
        [⟨mkHeader pre L post, true, L, payload.take (k - 24)⟩] := by
      simp [canonState, hk24]
      omega
    have hplen : (payload.take (k - 24)).length = k - 24 := by
      simp [hpay]; omega
    have hnotc : CNetMessage.complete ⟨mkHeader pre L post, true, L, payload.take (k - 24)⟩ = false := by
      simp [CNetMessage.complete, hplen]
      omega
    rw [hmsg]
    have hstep : receiveStep maxCompact maxProto c
          [⟨mkHeader pre L post, true, L, payload.take (k - 24)⟩] =
        match (readData ⟨mkHeader pre L post, true, L, payload.take (k - 24)⟩ c : CNetMessage × Nat) with
        | (m', handled) =>
            if m'.in_data && decide (maxProto < m'.nMessageSize) then none
            else some ([m'], handled) := by
      simp [receiveStep, hnotc]
    rw [hstep]
    have hdata : readData ⟨mkHeader pre L post, true, L, payload.take (k - 24)⟩ c =
        (⟨mkHeader pre L post, true, L, payload.take (k - 24 + nCopy)⟩, nCopy) := by
      simp only [readData, hplen]
      have h1 : L - (k - 24) = 24 + L - k := by omega
      have h2 : c.take (min (24 + L - k) c.length) =
          (payload.drop (k - 24)).take nCopy := by
        rw [← hnc, hctake nCopy (min_le_right _ _)]
        have h24 : (mkHeader pre L post).length + (k - 24) = k := by
          rw [hhdr]; omega
        have : (mkHeader pre L post ++ payload).drop k = payload.drop (k - 24) := by
          conv_lhs => rw [← h24]
          exact List.drop_append _
        rw [this]
      rw [h1, h2, ← List.take_add]
    rw [hdata]
    have : decide (maxProto < L) = false := by simp; omega
    simp only [this, Bool.true_and, Bool.false_eq_true, if_false]
    have hcanon : canonState pre L post payload (k + nCopy) =
        [⟨mkHeader pre L post, true, L, payload.take (k - 24 + nCopy)⟩] := by
      have h0 : ¬(k + nCopy = 0) := by omega
      have h1 : ¬(k + nCopy < 24) := by omega
      simp only [canonState, h0, h1, if_false]
      rw [(by omega : k + nCopy - 24 = k - 24 + nCopy)]
    rw [canonNeed, if_neg hk24, ← hnc, hcanon]

/-- Feeding one chunk of the canonical stream to `ReceiveMsgBytes` from the
canonical state advances the state by the chunk's length. -/
theorem receiveMsgBytes_canon (maxCompact maxProto : Nat)
    (pre post payload : List Nat) (L : Nat)
    (hpre : pre.length = 16) (hpost : post.length = 4)
    (hpay : payload.length = L) (hL32 : L < 2 ^ 32)
    (hLp : L ≤ maxProto) (hpc : maxProto ≤ maxCompact) :
    ∀ (n : Nat) (c : List Nat) (k : Nat), c.length ≤ n → k ≤ 24 + L →
    (∃ r, c ++ r = (mkHeader pre L post ++ payload).drop k) →
    receiveMsgBytes maxCompact maxProto c (canonState pre L post payload k) =
      some (canonState pre L post payload (k + c.length)) := by
  intro n
  induction n with
  | zero =>
      intro c k hcn _ _
      have : c = [] := List.length_eq_zero.mp (Nat.le_zero.mp hcn)
      subst this
      simp [receiveMsgBytes]
  | succ n ih =>
      intro c k hcn hk hseg
      by_cases hcne : c = []
      · subst hcne
        simp [receiveMsgBytes]
      · have hcpos : 1 ≤ c.length := by
          have := List.length_pos.mpr hcne
          omega
        obtain ⟨r, hr⟩ := hseg
        have hhdr : (mkHeader pre L post).length = 24 :=
          mkHeader_length pre L post hpre hpost
        have hdlen : ((mkHeader pre L post ++ payload).drop k).length = 24 + L - k := by
          rw [List.length_drop, List.length_append, hhdr, hpay]
        have hclen : c.length ≤ 24 + L - k := by
          have h1 := congrArg List.length hr
          rw [List.length_append, hdlen] at h1
          omega
        have hk' : k < 24 + L := by omega
        rw [receiveMsgBytes_cons_step _ _ _ _ hcne,
          receiveStep_canon maxCompact maxProto pre post payload L hpre hpost hpay
            hL32 hLp hpc k c hk' hcne ⟨r, hr⟩]
        have hneed : 1 ≤ canonNeed L k := by
          rw [canonNeed]
          by_cases h : k < 24 <;> simp [h] <;> omega
        have hh1 : 1 ≤ min (canonNeed L k) c.length := le_min hneed hcpos
        have hh2 : min (canonNeed L k) c.length ≤ c.length := min_le_right _ _
        simp only [if_neg (by omega : ¬ min (canonNeed L k) c.length = 0)]
        have hrec := ih (c.drop (min (canonNeed L k) c.length))
          (k + min (canonNeed L k) c.length)
          (by rw [List.length_drop]; omega)
          (by
            have : canonNeed L k ≤ 24 + L - k := by
              rw [canonNeed]
              by_cases h : k < 24 <;> simp [h] <;> omega
            omega)
          ⟨r, by
            rw [← List.drop_append_of_le_length hh2, hr, List.drop_drop,
              Nat.add_comm]⟩
        rw [hrec]
        have harith : k + min (canonNeed L k) c.length +
            (c.drop (min (canonNeed L k) c.length)).length = k + c.length := by
          rw [List.length_drop]
          omega
        rw [harith]

/-- Feeding a run of chunks that exactly covers the rest of the canonical
stream drives the canonical state to the end of the frame.  A `none` from
any call short-circuits the run, as the caller tears the connection down. -/
theorem receiveChunks_canon (maxCompact maxProto : Nat)
    (pre post payload : List Nat) (L : Nat)
    (hpre : pre.length = 16) (hpost : post.length = 4)
    (hpay : payload.length = L) (hL32 : L < 2 ^ 32)
    (hLp : L ≤ maxProto) (hpc : maxProto ≤ maxCompact) :
    ∀ (cs : List (List Nat)) (k : Nat), k ≤ 24 + L →
    cs.flatten = (mkHeader pre L post ++ payload).drop k →
    cs.foldl (fun st c => st.bind (receiveMsgBytes maxCompact maxProto c))
        (some (canonState pre L post payload k)) =
      some (canonState pre L post payload (24 + L)) := by
  intro cs
  induction cs with
  | nil =>
      intro k hk hflat
      have hdlen : ((mkHeader pre L post ++ payload).drop k).length = 24 + L - k := by
        rw [List.length_drop, List.length_append,
          mkHeader_length pre L post hpre hpost, hpay]
      rw [List.flatten_nil] at hflat
      have h1 := congrArg List.length hflat
      rw [List.length_nil, hdlen] at h1
      have : k = 24 + L := by omega
      subst this
      simp
  | cons c cs ih =>
      intro k hk hflat
      rw [List.flatten_cons] at hflat
      have hdlen : ((mkHeader pre L post ++ payload).drop k).length = 24 + L - k := by
        rw [List.length_drop, List.length_append,
          mkHeader_length pre L post hpre hpost, hpay]
      have hclen : c.length + cs.flatten.length = 24 + L - k := by
        have h1 := congrArg List.length hflat
        rw [List.length_append, hdlen] at h1
        omega
      rw [List.foldl_cons, Option.some_bind,
        receiveMsgBytes_canon maxCompact maxProto pre post payload L hpre hpost hpay
          hL32 hLp hpc c.length c k le_rfl hk ⟨cs.flatten, hflat⟩]
      exact ih (k + c.length) (by omega)
        (by rw [← List.drop_left c cs.flatten, hflat, List.drop_drop, Nat.add_comm])

/-- C2: for every input byte stream whose completed frame header declares a
payload length `L` above the hard maximum `MAX_PROTOCOL_MESSAGE_LENGTH`,
`ReceiveMsgBytes` fails (returns the C `false`, modelled `none`), telling
the caller to tear the connection down; the failure is decided by the 24
header bytes alone — the result is `none` for every `suffix` of following
bytes, including none at all, so no payload byte of the frame is consumed.
The state is the queue after `k < 24` header bytes have already arrived
(`k = 0` is a fresh queue), so the failure also fires when the header was
delivered across several calls.  This covers both rejection paths: lengths
above `MAX_SERIALIZED_COMPACT_SIZE` (`maxCompact`) fail inside `readHeader`,
and the rest fail at the `MAX_PROTOCOL_MESSAGE_LENGTH` check of the loop. -/
theorem receiveMsgBytes_oversized_none (maxCompact maxProto : Nat)
    (pre post suffix : List Nat) (L k : Nat)
    (hpre : pre.length = 16) (hpost : post.length = 4)
    (hL32 : L < 2 ^ 32) (hbig : maxProto < L) (hk : k < 24) :
    receiveMsgBytes maxCompact maxProto ((mkHeader pre L post).drop k ++ suffix)
        (if k = 0 then [] else [⟨(mkHeader pre L post).take k, false, 0, []⟩]) =
      none := by
  have hhdr : (mkHeader pre L post).length = 24 := mkHeader_length pre L post hpre hpost
  have hdroplen : ((mkHeader pre L post).drop k).length = 24 - k := by
    rw [List.length_drop, hhdr]
  have hne : (mkHeader pre L post).drop k ++ suffix ≠ [] := by
    intro h
    have := congrArg List.length h
    rw [List.length_append, hdroplen, List.length_nil] at this
    omega
  rw [receiveMsgBytes_cons_step _ _ _ _ hne]
  suffices hstep : receiveStep maxCompact maxProto
      ((mkHeader pre L post).drop k ++ suffix)
      (if k = 0 then [] else [⟨(mkHeader pre L post).take k, false, 0, []⟩]) =
      none by
    rw [hstep]
  have hlen_take : ((mkHeader pre L post).take k).length = k := by
    rw [List.length_take, hhdr]
    omega
  have hnCopy : min (24 - k) ((mkHeader pre L post).drop k ++ suffix).length =
      24 - k := by
    rw [List.length_append, hdroplen]
    exact min_eq_left (by omega)
  have htakeInput : ((mkHeader pre L post).drop k ++ suffix).take (24 - k) =
      (mkHeader pre L post).drop k := List.take_left' hdroplen
  have hdecode : decodeLE32 ((mkHeader pre L post).drop 16) = L := by
    have h1 : (mkHeader pre L post).drop 16 = le32enc L ++ post := by
      rw [mkHeader, List.append_assoc]
      exact List.drop_left' hpre
    rw [h1, decodeLE32_le32enc, Nat.mod_eq_of_lt hL32]
  have hfront : receiveStep maxCompact maxProto
      ((mkHeader pre L post).drop k ++ suffix)
      (if k = 0 then [] else [⟨(mkHeader pre L post).take k, false, 0, []⟩]) =
      match readHeader maxCompact ⟨(mkHeader pre L post).take k, false, 0, []⟩
          ((mkHeader pre L post).drop k ++ suffix) with
      | none => none
      | some (m', handled) =>
          if m'.in_data && decide (maxProto < m'.nMessageSize) then none
          else some ([m'], handled) := by
    by_cases h0 : k = 0
    · subst h0
      simp [receiveStep, freshMsg]
    · simp [receiveStep, CNetMessage.complete, h0, freshMsg]
  rw [hfront]
  by_cases hcap : maxCompact < L
  · -- rejected inside readHeader (MAX_SERIALIZED_COMPACT_SIZE)
    have hrh : readHeader maxCompact ⟨(mkHeader pre L post).take k, false, 0, []⟩
        ((mkHeader pre L post).drop k ++ suffix) = none := by
      simp only [readHeader, hlen_take, hnCopy, htakeInput, List.take_append_drop]
      rw [if_neg (by rw [hhdr]; omega), hdecode, if_pos hcap]
    rw [hrh]
  · -- accepted by readHeader, rejected by the MAX_PROTOCOL_MESSAGE_LENGTH check
    have hrh : readHeader maxCompact ⟨(mkHeader pre L post).take k, false, 0, []⟩
        ((mkHeader pre L post).drop k ++ suffix) =
        some (⟨mkHeader pre L post, true, L, []⟩, 24 - k) := by
      simp only [readHeader, hlen_take, hnCopy, htakeInput, List.take_append_drop]
      rw [if_neg (by rw [hhdr]; omega), hdecode, if_neg hcap]
    rw [hrh]
    have : decide (maxProto < L) = true := decide_eq_true hbig
    simp [this]

/-- Witness for C2: a 13-byte-payload frame declared oversized
(`L = 101 > maxProto = 100`) is rejected from a fresh queue with one
trailing byte present. -/
theorem receiveMsgBytes_oversized_none_witness :
    receiveMsgBytes 200 100
        ((mkHeader (List.replicate 16 0) 101 [0, 0, 0, 0]).drop 0 ++ [7])
        (if (0 : Nat) = 0 then [] else
          [⟨(mkHeader (List.replicate 16 0) 101 [0, 0, 0, 0]).take 0, false, 0, []⟩]) =
      none :=
  receiveMsgBytes_oversized_none 200 100 (List.replicate 16 0) [0, 0, 0, 0] [7] 101 0
    (by decide) (by decide) (by norm_num) (by decide) (by decide)

/-- C3: for every declared length `L` at most the hard maximum, feeding the
24-byte header followed by exactly `L` payload bytes — split into successive
`ReceiveMsgBytes` calls in any way whatsoever — produces exactly one frame,
that frame is complete, and its payload length equals `L`. -/
theorem receiveMsgBytes_roundTrip_chunked (maxCompact maxProto : Nat)
    (pre post payload : List Nat) (L : Nat) (chunks : List (List Nat))
    (hpre : pre.length = 16) (hpost : post.length = 4)
    (hpay : payload.length = L) (hL32 : L < 2 ^ 32)
    (hLp : L ≤ maxProto) (hpc : maxProto ≤ maxCompact)
    (hjoin : chunks.flatten = mkHeader pre L post ++ payload) :
    chunks.foldl (fun st c => st.bind (receiveMsgBytes maxCompact maxProto c))
        (some []) = some [⟨mkHeader pre L post, true, L, payload⟩] ∧
    CNetMessage.complete ⟨mkHeader pre L post, true, L, payload⟩ = true ∧
    (⟨mkHeader pre L post, true, L, payload⟩ : CNetMessage).payload.length = L := by
  refine ⟨?_, ?_, hpay⟩
  · have h0 : canonState pre L post payload 0 = [] := by simp [canonState]
    have hfin : canonState pre L post payload (24 + L) =
        [⟨mkHeader pre L post, true, L, payload⟩] := by
      rw [canonState, if_neg (by omega), if_neg (by omega),
        (by omega : 24 + L - 24 = L), List.take_of_length_le (by omega)]
    have hrun := receiveChunks_canon maxCompact maxProto pre post payload L hpre
      hpost hpay hL32 hLp hpc chunks 0 (by omega)
      (by rw [List.drop_zero]; exact hjoin)
    rw [h0] at hrun
    rw [hrun, hfin]
  · simp [CNetMessage.complete, hpay]

/-- Witness for C3: a two-byte payload delivered in three chunks that split
both the header and the payload. -/
theorem receiveMsgBytes_roundTrip_chunked_witness :
    [(mkHeader (List.replicate 16 0) 2 [0, 0, 0, 0]).take 10,
     (mkHeader (List.replicate 16 0) 2 [0, 0, 0, 0]).drop 10 ++ [7],
     [9]].foldl
        (fun st c => st.bind (receiveMsgBytes 200 100 c)) (some []) =
      some [⟨mkHeader (List.replicate 16 0) 2 [0, 0, 0, 0], true, 2, [7, 9]⟩] ∧
    CNetMessage.complete
      ⟨mkHeader (List.replicate 16 0) 2 [0, 0, 0, 0], true, 2, [7, 9]⟩ = true ∧
    (⟨mkHeader (List.replicate 16 0) 2 [0, 0, 0, 0], true, 2, [7, 9]⟩ :
      CNetMessage).payload.length = 2 :=
  receiveMsgBytes_roundTrip_chunked 200 100 (List.replicate 16 0) [0, 0, 0, 0]
    [7, 9] 2
    [(mkHeader (List.replicate 16 0) 2 [0, 0, 0, 0]).take 10,
     (mkHeader (List.replicate 16 0) 2 [0, 0, 0, 0]).drop 10 ++ [7], [9]]
    (by decide) (by decide) (by decide) (by norm_num) (by decide) (by decide)
    (by decide)

/-- The receive-queue invariant: every frame before the last one is
complete — equivalently, the queue holds at most one incomplete frame, and
only at its tail. -/
def recvQueueInv (msgs : List CNetMessage) : Prop :=
  ∀ m ∈ msgs.dropLast, m.complete = true

/-- One loop pass preserves the queue invariant (the pass appends a fresh
frame only when the queue is empty or its last frame is complete, and it
rewrites only the last frame). -/
theorem recvQueueInv_receiveStep (maxCompact maxProto : Nat) (input : List Nat)
    (msgs msgs' : List CNetMessage) (hdl : Nat)
    (hInv : recvQueueInv msgs)
    (hstep : receiveStep maxCompact maxProto input msgs = some (msgs', hdl)) :
    recvQueueInv msgs' := by
  have hfrontc : ∀ m ∈ (if msgs.getLast?.all CNetMessage.complete
      then msgs ++ [freshMsg] else msgs).dropLast, m.complete = true := by
    by_cases hp : msgs.getLast?.all CNetMessage.complete = true
    · rw [if_pos hp, List.dropLast_concat]
      intro m hm
      rcases List.eq_nil_or_concat msgs with hnil | ⟨l, a, hc⟩
      · subst hnil
        cases hm
      · rw [List.concat_eq_append] at hc
        subst hc
        rw [List.getLast?_concat] at hp
        rw [List.mem_append] at hm
        rcases hm with hm | hm
        · exact hInv m (by rwa [List.dropLast_concat])
        · rw [List.mem_singleton] at hm
          subst hm
          simpa using hp
    · rw [if_neg hp]
      exact hInv
  simp only [receiveStep] at hstep
  split at hstep
  · exact absurd hstep (by simp)
  · split at hstep
    · exact absurd hstep (by simp)
    · simp only [Option.some.injEq, Prod.mk.injEq] at hstep
      obtain ⟨h1, _⟩ := hstep
      intro m hm
      rw [← h1, List.dropLast_concat] at hm
      exact hfrontc m hm

/-- Helper for C8, with an explicit bound on the input length for the
induction. -/
theorem recvQueueInv_receiveMsgBytes_aux (maxCompact maxProto : Nat) :
    ∀ (n : Nat) (input : List Nat) (msgs msgs' : List CNetMessage),
    input.length ≤ n → recvQueueInv msgs →
    receiveMsgBytes maxCompact maxProto input msgs = some msgs' →
    recvQueueInv msgs' := by
  intro n
  induction n with
  | zero =>
      intro input msgs msgs' hlen hInv hrun
      have : input = [] := List.length_eq_zero.mp (Nat.le_zero.mp hlen)
      subst this
      simp only [receiveMsgBytes, Option.some.injEq] at hrun
      rwa [← hrun]
  | succ n ih =>
      intro input msgs msgs' hlen hInv hrun
      by_cases hne : input = []
      · subst hne
        simp only [receiveMsgBytes, Option.some.injEq] at hrun
        rwa [← hrun]
      · rw [receiveMsgBytes_cons_step _ _ _ _ hne] at hrun
        rcases hstep : receiveStep maxCompact maxProto input msgs with _ | ⟨msgs1, hdl⟩
        · rw [hstep] at hrun
          exact absurd hrun (by simp)
        · rw [hstep] at hrun
          change (if hdl = 0 then none
            else receiveMsgBytes maxCompact maxProto (input.drop hdl) msgs1) =
              some msgs' at hrun
          by_cases h0 : hdl = 0
          · rw [if_pos h0] at hrun
            exact absurd hrun (by simp)
          · rw [if_neg h0] at hrun
            have hpos : 1 ≤ input.length := by
              have := List.length_pos.mpr hne
              omega
            exact ih (input.drop hdl) msgs1 msgs'
              (by rw [List.length_drop]; omega)
              (recvQueueInv_receiveStep maxCompact maxProto input msgs msgs1 hdl
                hInv hstep)
              hrun

/-- C8: a successful `ReceiveMsgBytes` call keeps the receive queue's
invariant — every frame before the last is complete, so the queue contains
at most one incomplete frame, always at the tail.  (The code appends a new
frame object only when the queue is empty or its last frame is complete;
that guard is literal in `receiveStep`.)  The invariant holds of the initial
empty queue, so it holds after every call. -/
theorem recvQueueInv_receiveMsgBytes (maxCompact maxProto : Nat)
    (input : List Nat) (msgs msgs' : List CNetMessage)
    (hInv : recvQueueInv msgs)
    (hrun : receiveMsgBytes maxCompact maxProto input msgs = some msgs') :
    recvQueueInv msgs' :=
  recvQueueInv_receiveMsgBytes_aux maxCompact maxProto input.length input msgs
    msgs' le_rfl hInv hrun

/-- Witness for C8: feeding three header bytes to an empty queue yields a
queue with one (incomplete, tail) frame, and the invariant holds of it. -/
theorem recvQueueInv_receiveMsgBytes_witness :
    recvQueueInv [⟨[1, 2, 3], false, 0, []⟩] := by
  have h := receiveMsgBytes_canon 200 100 ([1, 2, 3] ++ List.replicate 13 0)
    [0, 0, 0, 0] [] 0 (by decide) (by decide) (by decide) (by norm_num)
    (by decide) (by decide) 3 [1, 2, 3] 0 (by decide) (by decide)
    ⟨(mkHeader ([1, 2, 3] ++ List.replicate 13 0) 0 [0, 0, 0, 0]).drop 3,
      by decide⟩
  have e0 : canonState ([1, 2, 3] ++ List.replicate 13 0) 0 [0, 0, 0, 0] [] 0 =
      [] := by decide
  have e3 : canonState ([1, 2, 3] ++ List.replicate 13 0) 0 [0, 0, 0, 0] []
      (0 + [1, 2, 3].length) = [⟨[1, 2, 3], false, 0, []⟩] := by decide
  rw [e0, e3] at h
  exact recvQueueInv_receiveMsgBytes 200 100 [1, 2, 3] [] _
    (by intro m hm; cases hm) h

/-! ## Ban table (CNode::Ban, CNode::IsBanned) -/

/-- The requested expiry computed at the top of `CNode::Ban`
(net.cpp:577-580): `GetTime() + GetArg("-bantime", 60*60*24)` by default;
when `bantimeoffset > 0` it becomes `(sinceUnixEpoch ? 0 : GetTime()) +
bantimeoffset`.  `now` stands for `GetTime()` and `dflt` for the configured
`-bantime` value (86400, i.e. 24 hours, when unset). -/
def banRequestTime (now dflt bantimeoffset : Int) (sinceUnixEpoch : Bool) : Int :=
  if bantimeoffset > 0 then (if sinceUnixEpoch then 0 else now) + bantimeoffset
  else now + dflt

/-- The compare-and-raise in `CNode::Ban` (net.cpp:582-584) on the map
`setBanned`, modelled as a partial map from abstract subnet ids to expiry.
`std::map::operator[]` default-constructs an absent entry to 0 before the
comparison, so the stored value becomes `max(current-or-0, banTime)`. -/
def banUpdate (m : Nat → Option Int) (s : Nat) (banTime : Int) :
    Nat → Option Int :=
  fun x => if x = s then some (max ((m s).getD 0) banTime) else m x

/-- Embedding of `CNode::Ban` on a subnet (net.cpp:577-585). -/
def CNode_Ban (m : Nat → Option Int) (s : Nat) (now dflt bantimeoffset : Int)
    (sinceUnixEpoch : Bool) : Nat → Option Int :=
  banUpdate m s (banRequestTime now dflt bantimeoffset sinceUnixEpoch)

/-- Embedding of `CNode::IsBanned` on a subnet (net.cpp:556-570): banned iff the subnet
has an entry `t` and `GetTime() < t`. -/
def CNode_IsBanned (m : Nat → Option Int) (s : Nat) (now : Int) : Bool :=
  match m s with
  | some t => decide (now < t)
  | none => false

/-- One `CNode::Ban` call's arguments. -/
structure BanReq where
  now : Int
  dflt : Int
  bantimeoffset : Int
  sinceUnixEpoch : Bool

/-- The expiry a request asks for. -/
def BanReq.requested (r : BanReq) : Int :=
  banRequestTime r.now r.dflt r.bantimeoffset r.sinceUnixEpoch

/-- A sequence of `CNode::Ban` calls on the same subnet. -/
def applyBans (m : Nat → Option Int) (s : Nat) (reqs : List BanReq) :
    Nat → Option Int :=
  reqs.foldl
    (fun acc r => CNode_Ban acc s r.now r.dflt r.bantimeoffset r.sinceUnixEpoch) m

theorem foldl_max_mem_or (l : List Int) (a : Int) :
    l.foldl max a ∈ l ∨ l.foldl max a = a := by
  induction l generalizing a with
  | nil => exact Or.inr rfl
  | cons x xs ih =>
      rw [List.foldl_cons]
      rcases ih (max a x) with h | h
      · exact Or.inl (List.mem_cons_of_mem x h)
      · rcases max_choice a x with hm | hm
        · exact Or.inr (h.trans hm)
        · refine Or.inl ?_
          rw [h, hm]
          exact List.mem_cons_self x xs

theorem le_foldl_max_init (l : List Int) (a : Int) : a ≤ l.foldl max a := by
  induction l generalizing a with
  | nil => exact le_rfl
  | cons x xs ih => exact le_trans (le_max_left a x) (ih (max a x))

theorem mem_le_foldl_max (l : List Int) (a x : Int) (hx : x ∈ l) :
    x ≤ l.foldl max a := by
  induction l generalizing a with
  | nil => cases hx
  | cons y ys ih =>
      rw [List.foldl_cons]
      rcases List.mem_cons.mp hx with h | h
      · rw [h]
        exact le_trans (le_max_right a y) (le_foldl_max_init ys (max a y))
      · exact ih (max a y) h

/-- After at least one `Ban` call, the stored expiry is the fold of `max`
over the requested expiries, seeded with the entry's previous
value-or-zero. -/
theorem applyBans_lookup (s : Nat) :
    ∀ (reqs : List BanReq) (m : Nat → Option Int), reqs ≠ [] →
    applyBans m s reqs s =
      some ((reqs.map BanReq.requested).foldl max ((m s).getD 0)) := by
  intro reqs
  induction reqs with
  | nil => intro m h; exact absurd rfl h
  | cons r rest ih =>
      intro m _
      by_cases hrest : rest = []
      · subst hrest
        simp [applyBans, CNode_Ban, banUpdate, BanReq.requested]
      · have hstep : applyBans m s (r :: rest) =
            applyBans (CNode_Ban m s r.now r.dflt r.bantimeoffset r.sinceUnixEpoch)
              s rest := by
          simp [applyBans]
        rw [hstep, ih _ hrest]
        have hlook : ((CNode_Ban m s r.now r.dflt r.bantimeoffset
            r.sinceUnixEpoch) s).getD 0 = max ((m s).getD 0) r.requested := by
          simp [CNode_Ban, banUpdate, BanReq.requested]
        rw [hlook]
        simp

/-- C5: for every subnet and every nonempty sequence of `Ban` calls with
nonnegative requested expiries, starting from no entry: the stored expiry is
the maximum of the requested expiries (an upper bound that is itself one of
the requests — re-banning with an earlier expiry never shortens a ban), and
`IsBanned` returns true exactly while the current time is strictly before
that stored expiry. -/
theorem ban_keepLater_isBanned (s : Nat) (reqs : List BanReq)
    (m0 : Nat → Option Int) (habs : m0 s = none) (hne : reqs ≠ [])
    (hnn : ∀ r ∈ reqs, 0 ≤ r.requested) :
    applyBans m0 s reqs s =
      some ((reqs.map BanReq.requested).foldl max 0) ∧
    ((reqs.map BanReq.requested).foldl max 0) ∈ reqs.map BanReq.requested ∧
    (∀ r ∈ reqs, r.requested ≤ (reqs.map BanReq.requested).foldl max 0) ∧
    (∀ now, CNode_IsBanned (applyBans m0 s reqs) s now =
      decide (now < (reqs.map BanReq.requested).foldl max 0)) := by
  have hl := applyBans_lookup s reqs m0 hne
  rw [habs] at hl
  simp only [Option.getD_none] at hl
  refine ⟨hl, ?_, ?_, ?_⟩
  · rcases foldl_max_mem_or (reqs.map BanReq.requested) 0 with h | h
    · exact h
    · rcases reqs with _ | ⟨r, rest⟩
      · exact absurd rfl hne
      · have h0 : 0 ≤ r.requested := hnn r (List.mem_cons_self r rest)
        have hub : r.requested ≤
            ((r :: rest).map BanReq.requested).foldl max 0 :=
          mem_le_foldl_max _ 0 _ (by simp)
        rw [h] at hub
        have : r.requested = 0 := le_antisymm hub h0
        rw [h, ← this]
        simp
  · intro r hr
    exact mem_le_foldl_max _ 0 _ (List.mem_map_of_mem BanReq.requested hr)
  · intro now
    rw [CNode_IsBanned, hl]

/-- Witness for C5: two bans, the second asking for an earlier expiry; the
stored expiry stays at 500 and `IsBanned` flips exactly at time 500. -/
theorem ban_keepLater_isBanned_witness :
    applyBans (fun _ => none) 1 [⟨100, 400, 0, false⟩, ⟨200, 86400, 100, false⟩]
        1 = some ((([⟨100, 400, 0, false⟩, ⟨200, 86400, 100, false⟩] :
          List BanReq).map BanReq.requested).foldl max 0) ∧
    ((([⟨100, 400, 0, false⟩, ⟨200, 86400, 100, false⟩] :
        List BanReq).map BanReq.requested).foldl max 0) ∈
      ([⟨100, 400, 0, false⟩, ⟨200, 86400, 100, false⟩] :
        List BanReq).map BanReq.requested ∧
    (∀ r ∈ ([⟨100, 400, 0, false⟩, ⟨200, 86400, 100, false⟩] : List BanReq),
      r.requested ≤ ((([⟨100, 400, 0, false⟩, ⟨200, 86400, 100, false⟩] :
        List BanReq).map BanReq.requested).foldl max 0)) ∧
    (∀ now, CNode_IsBanned
        (applyBans (fun _ => none) 1
          [⟨100, 400, 0, false⟩, ⟨200, 86400, 100, false⟩]) 1 now =
      decide (now < ((([⟨100, 400, 0, false⟩, ⟨200, 86400, 100, false⟩] :
        List BanReq).map BanReq.requested).foldl max 0))) :=
  ban_keepLater_isBanned 1 [⟨100, 400, 0, false⟩, ⟨200, 86400, 100, false⟩]
    (fun _ => none) rfl (List.cons_ne_nil _ _)
    (by
      intro r hr
      fin_cases hr <;> decide)

/-- C10: with `bantimeoffset ≤ 0` the requested expiry is `now` plus the
configured default, whatever `sinceUnixEpoch` is; with `bantimeoffset > 0`
it is `bantimeoffset` itself when `sinceUnixEpoch` is set and
`now + bantimeoffset` otherwise; in all cases the stored entry becomes the
maximum of the previous value (0 when absent) and the requested expiry. -/
theorem banRequestTime_spec (m : Nat → Option Int) (s : Nat)
    (now dflt bantimeoffset : Int) (sinceUnixEpoch : Bool) :
    (bantimeoffset ≤ 0 →
      banRequestTime now dflt bantimeoffset sinceUnixEpoch = now + dflt) ∧
    (0 < bantimeoffset →
      banRequestTime now dflt bantimeoffset true = bantimeoffset) ∧
    (0 < bantimeoffset →
      banRequestTime now dflt bantimeoffset false = now + bantimeoffset) ∧
    CNode_Ban m s now dflt bantimeoffset sinceUnixEpoch s =
      some (max ((m s).getD 0)
        (banRequestTime now dflt bantimeoffset sinceUnixEpoch)) := by
  refine ⟨?_, ?_, ?_, ?_⟩
  · intro h
    rw [banRequestTime, if_neg (by omega)]
  · intro h
    rw [banRequestTime, if_pos h]
    simp
  · intro h
    rw [banRequestTime, if_pos h]
    simp
  · simp [CNode_Ban, banUpdate]

/-- Witness for C10 at a concrete call. -/
theorem banRequestTime_spec_witness :
    ((-3 : Int) ≤ 0 → banRequestTime 100 86400 (-3) true = 100 + 86400) ∧
    ((0 : Int) < -3 → banRequestTime 100 86400 (-3) true = -3) ∧
    ((0 : Int) < -3 → banRequestTime 100 86400 (-3) false = 100 + (-3)) ∧
    CNode_Ban (fun _ => none) 2 100 86400 (-3) true 2 =
      some (max (((fun _ => none : Nat → Option Int) 2).getD 0)
        (banRequestTime 100 86400 (-3) true)) :=
  banRequestTime_spec (fun _ => none) 2 100 86400 (-3) true

/-! ## TLS fallback tables (ConnectNode, AcceptConnection) -/

/-- Modelled from the spec: the outcome of one secure-handshake attempt by
the TLS manager, whose source is not under src/ — success, a select timeout
(the `TLSManager::SELECT_TIMEDOUT` error code), or any other (protocol)
error code. -/
inductive TLSOutcome
  | ok
  | timedOut
  | protoError
deriving DecidableEq

/-- What the caller does with the connection after the fallback block. -/
inductive ConnAction
  | proceedTLS
  | proceedUnencrypted
  | abort
deriving DecidableEq

/-- The fallback-mode block of `CConnman::ConnectNode` (net.cpp:379-424),
acting on `vNonTLSNodesOutbound` (entries modelled by address ids; the
stored `GetTimeMillis` stamp only matters to the pool cleaner): an address
already in the table skips the handshake, is erased from the table, and
proceeds unencrypted; otherwise the handshake runs, and on failure the
address is appended to the table unless the failure was the select timeout,
the attempt being aborted either way. -/
def connectNodeTLSFallback (vNonTLSNodesOutbound : List Nat) (addr : Nat)
    (outcome : TLSOutcome) : List Nat × ConnAction :=
  if addr ∈ vNonTLSNodesOutbound then
    (vNonTLSNodesOutbound.filter (fun a => a != addr),
      ConnAction.proceedUnencrypted)
  else
    match outcome with
    | TLSOutcome.ok => (vNonTLSNodesOutbound, ConnAction.proceedTLS)
    | TLSOutcome.timedOut => (vNonTLSNodesOutbound, ConnAction.abort)
    | TLSOutcome.protoError =>
        (vNonTLSNodesOutbound ++ [addr], ConnAction.abort)

/-- The fallback-mode block of `CConnman::AcceptConnection`
(net.cpp:1166-1211), acting on `vNonTLSNodesInbound`; structurally identical
to the outbound block. -/
def acceptConnectionTLSFallback (vNonTLSNodesInbound : List Nat) (addr : Nat)
    (outcome : TLSOutcome) : List Nat × ConnAction :=
  if addr ∈ vNonTLSNodesInbound then
    (vNonTLSNodesInbound.filter (fun a => a != addr),
      ConnAction.proceedUnencrypted)
  else
    match outcome with
    | TLSOutcome.ok => (vNonTLSNodesInbound, ConnAction.proceedTLS)
    | TLSOutcome.timedOut => (vNonTLSNodesInbound, ConnAction.abort)
    | TLSOutcome.protoError =>
        (vNonTLSNodesInbound ++ [addr], ConnAction.abort)

/-- Outbound half of C4: behaviour of the `ConnectNode` fallback block on a
failed handshake. -/
theorem connectFallbackBlock_spec (table : List Nat) (addr : Nat)
    (outcome : TLSOutcome) (hmem : addr ∉ table)
    (hfail : outcome ≠ TLSOutcome.ok) :
    (connectNodeTLSFallback table addr outcome).2 = ConnAction.abort ∧
    ((connectNodeTLSFallback table addr outcome).1 = table ++ [addr] ↔
      outcome ≠ TLSOutcome.timedOut) ∧
    (outcome = TLSOutcome.timedOut →
      (connectNodeTLSFallback table addr outcome).1 = table) := by
  have hneq : ¬(table = table ++ [addr]) := by
    intro h
    have := congrArg List.length h
    simp at this
  cases outcome with
  | ok => exact absurd rfl hfail
  | timedOut =>
      refine ⟨by simp [connectNodeTLSFallback, hmem], ?_,
        fun _ => by simp [connectNodeTLSFallback, hmem]⟩
      simp only [connectNodeTLSFallback, if_neg hmem, ne_eq, not_true_eq_false,
        iff_false]
      exact hneq
  | protoError =>
      exact ⟨by simp [connectNodeTLSFallback, hmem],
        by simp [connectNodeTLSFallback, hmem],
        fun h => by cases h⟩

theorem acceptFallbackBlock_spec (table : List Nat) (addr : Nat)
    (outcome : TLSOutcome) (hmem : addr ∉ table)
    (hfail : outcome ≠ TLSOutcome.ok) :
    (acceptConnectionTLSFallback table addr outcome).2 = ConnAction.abort ∧
    ((acceptConnectionTLSFallback table addr outcome).1 = table ++ [addr] ↔
      outcome ≠ TLSOutcome.timedOut) ∧
    (outcome = TLSOutcome.timedOut →
      (acceptConnectionTLSFallback table addr outcome).1 = table) := by
  have hneq : ¬(table = table ++ [addr]) := by
    intro h
    have := congrArg List.length h
    simp at this
  cases outcome with
  | ok => exact absurd rfl hfail
  | timedOut =>
      refine ⟨by simp [acceptConnectionTLSFallback, hmem], ?_,
        fun _ => by simp [acceptConnectionTLSFallback, hmem]⟩
      simp only [acceptConnectionTLSFallback, if_neg hmem, ne_eq,
        not_true_eq_false, iff_false]
      exact hneq
  | protoError =>
      exact ⟨by simp [acceptConnectionTLSFallback, hmem],
        by simp [acceptConnectionTLSFallback, hmem],
        fun h => by cases h⟩

/-- C4: in fallback mode, on both the initiator path (`ConnectNode`) and the
responder path (`AcceptConnection`), a failed handshake attempt (the address
was not already in the table, so the handshake actually ran) aborts the
connection, and the address is added to the fallback table iff the failure
was not a timeout; a timeout leaves the table unchanged. -/
theorem tlsFallback_timeoutExempt (table : List Nat) (addr : Nat)
    (outcome : TLSOutcome) (hmem : addr ∉ table)
    (hfail : outcome ≠ TLSOutcome.ok) :
    ((connectNodeTLSFallback table addr outcome).2 = ConnAction.abort ∧
      ((connectNodeTLSFallback table addr outcome).1 = table ++ [addr] ↔
        outcome ≠ TLSOutcome.timedOut) ∧
      (outcome = TLSOutcome.timedOut →
        (connectNodeTLSFallback table addr outcome).1 = table)) ∧
    ((acceptConnectionTLSFallback table addr outcome).2 = ConnAction.abort ∧
      ((acceptConnectionTLSFallback table addr outcome).1 = table ++ [addr] ↔
        outcome ≠ TLSOutcome.timedOut) ∧
      (outcome = TLSOutcome.timedOut →
        (acceptConnectionTLSFallback table addr outcome).1 = table)) :=
  ⟨connectFallbackBlock_spec table addr outcome hmem hfail,
    acceptFallbackBlock_spec table addr outcome hmem hfail⟩

/-- Witness for C4: address 9 not in table [4], protocol-error failure. -/
theorem tlsFallback_timeoutExempt_witness :
    (((connectNodeTLSFallback [4] 9 TLSOutcome.protoError).2 =
        ConnAction.abort ∧
      ((connectNodeTLSFallback [4] 9 TLSOutcome.protoError).1 = [4] ++ [9] ↔
        TLSOutcome.protoError ≠ TLSOutcome.timedOut) ∧
      (TLSOutcome.protoError = TLSOutcome.timedOut →
        (connectNodeTLSFallback [4] 9 TLSOutcome.protoError).1 = [4])) ∧
    ((acceptConnectionTLSFallback [4] 9 TLSOutcome.protoError).2 =
        ConnAction.abort ∧
      ((acceptConnectionTLSFallback [4] 9 TLSOutcome.protoError).1 =
          [4] ++ [9] ↔ TLSOutcome.protoError ≠ TLSOutcome.timedOut) ∧
      (TLSOutcome.protoError = TLSOutcome.timedOut →
        (acceptConnectionTLSFallback [4] 9 TLSOutcome.protoError).1 = [4]))) :=
  tlsFallback_timeoutExempt [4] 9 TLSOutcome.protoError (by decide) (by decide)

/-! ## Trickle-peer selection (CConnman::ThreadMessageHandler) -/

/-- The per-round trickle-peer pick of `ThreadMessageHandler`
(net.cpp:1806-1809): `pnodeTrickle = vNodesCopy[GetRand(size)]` when the
copied peer list is nonempty.  `GetRand` (not under src/) returns an
arbitrary value below its argument; the draw enters the model as `r`.
Peers are identified by node ids. -/
def trickleSelect (vNodesCopy : List Nat) (r : Nat) : Option Nat :=
  if vNodesCopy.isEmpty then none else vNodesCopy[r]?

/-- The trickle flag passed to `SendMessages` for one peer
(net.cpp:1842): `pnode == pnodeTrickle || pnode->fWhitelisted`. -/
def sendTrickleFlag (pnode : Nat) (fWhitelisted : Bool)
    (pnodeTrickle : Option Nat) : Bool :=
  (pnodeTrickle == some pnode) || fWhitelisted

/-- Counterexample to C9: two runs over the same two-peer list in the same
round, with the two possible `GetRand` draws, select different trickle
peers — the selection is random, not a deterministic rotation. -/
theorem trickleSelect_not_deterministic :
    (0 : Nat) < [10, 20].length ∧ (1 : Nat) < [10, 20].length ∧
    trickleSelect [10, 20] 0 ≠ trickleSelect [10, 20] 1 := by decide

/-- C9 (amended): each round over a nonempty peer list, the peer at the
random index `r` drawn by `GetRand` is selected as the trickle peer, and a
peer receives trickle send priority iff it is the selected peer or is
whitelisted; the selection depends on the draw, so it is not a deterministic
rotation, and whitelisted peers get the priority as well. -/
theorem trickleSelect_spec (l : List Nat) (r : Nat) (h : r < l.length) :
    trickleSelect l r = some (l.get ⟨r, h⟩) ∧
    ∀ pnode fWhitelisted,
      sendTrickleFlag pnode fWhitelisted (trickleSelect l r) =
        ((l.get ⟨r, h⟩ == pnode) || fWhitelisted) := by
  have hne : l.isEmpty = false := by
    cases l with
    | nil => cases h
    | cons x xs => rfl
  have hsel : trickleSelect l r = some (l.get ⟨r, h⟩) := by
    rw [trickleSelect, hne]
    simp [List.getElem?_eq_getElem h]
  refine ⟨hsel, fun pnode fWhitelisted => ?_⟩
  rw [sendTrickleFlag, hsel]
  by_cases hb : l.get ⟨r, h⟩ = pnode
  · simp [hb]
  · simp [hb]

/-- Witness for C9's amended statement on a concrete two-peer list. -/
theorem trickleSelect_spec_witness :
    trickleSelect [5, 7] 1 = some ([5, 7].get ⟨1, by decide⟩) ∧
    ∀ pnode fWhitelisted,
      sendTrickleFlag pnode fWhitelisted (trickleSelect [5, 7] 1) =
        (([5, 7].get ⟨1, by decide⟩ == pnode) || fWhitelisted) :=
  trickleSelect_spec [5, 7] 1 (by decide)

/-! ## Peer-address file (CAddrDB::Write, CAddrDB::Read) -/

/-- The error classes of `CAddrDB::Read`. -/
inductive AddrDBError
  | ioError
  | checksumMismatch
  | magicMismatch
  | deserializeError
deriving DecidableEq

/-- Embedding of `CAddrDB::Write` (net.cpp:2232-2268), as the byte content it commits:
the 4-byte network magic, the serialized address-manager snapshot, then a
32-byte digest over everything before it.  The snapshot serializer `enc`
(`CAddrMan` streaming, not under src/) and the digest `hash` (`Hash`, not
under src/) enter as parameters; the write-to-temp-then-rename I/O is not
modelled. -/
def addrDBWrite {α : Type} (magic : List Nat) (hash : List Nat → List Nat)
    (enc : α → List Nat) (a : α) : List Nat :=
  (magic ++ enc a) ++ hash (magic ++ enc a)

/-- Embedding of `CAddrDB::Read` (net.cpp:2270-2322): split the file into data and the
trailing 32-byte digest (an I/O error when even the digest cannot be read),
verify the stored checksum against the data, then the leading 4-byte magic
against the running network's, then deserialize the snapshot. -/
def addrDBRead {α : Type} (magic : List Nat) (hash : List Nat → List Nat)
    (dec : List Nat → Option α) (file : List Nat) : Except AddrDBError α :=
  if file.length < 32 then Except.error AddrDBError.ioError
  else
    let dataSize := file.length - 32
    let vchData := file.take dataSize
    let hashIn := file.drop dataSize
    if hashIn ≠ hash vchData then Except.error AddrDBError.checksumMismatch
    else if vchData.length < 4 then Except.error AddrDBError.deserializeError
    else if vchData.take 4 ≠ magic then Except.error AddrDBError.magicMismatch
    else
      match dec (vchData.drop 4) with
      | some a => Except.ok a
      | none => Except.error AddrDBError.deserializeError

/-- C7: writing the peer-address file and reading it back under the same
network magic succeeds and reproduces the written snapshot; reading it under
a different 4-byte magic fails with a magic-mismatch error (the checksum,
computed by the same digest, still passes); and any corruption of the
payload that changes its digest fails with a checksum-mismatch error — the
trailing hash is verified before the content is trusted.  The serializer and
digest are parameters: `dec (enc a) = some a` is the external serializer's
round trip, and a corruption is covered whenever the digest separates the
corrupted payload from the original (collision resistance of the external
digest). -/
theorem addrDB_roundTrip {α : Type} (magic magicB : List Nat)
    (hash : List Nat → List Nat) (enc : α → List Nat)
    (dec : List Nat → Option α) (a : α)
    (hm : magic.length = 4) (hmB : magicB.length = 4)
    (hhash : ∀ l, (hash l).length = 32)
    (hdecenc : dec (enc a) = some a) :
    addrDBRead magic hash dec (addrDBWrite magic hash enc a) = Except.ok a ∧
    (magicB ≠ magic →
      addrDBRead magicB hash dec (addrDBWrite magic hash enc a) =
        Except.error AddrDBError.magicMismatch) ∧
    (∀ payloadC, payloadC.length = (magic ++ enc a).length →
      hash payloadC ≠ hash (magic ++ enc a) →
      addrDBRead magic hash dec (payloadC ++ hash (magic ++ enc a)) =
        Except.error AddrDBError.checksumMismatch) := by
  have hfl : ((magic ++ enc a) ++ hash (magic ++ enc a)).length =
      (magic ++ enc a).length + 32 := by
    rw [List.length_append, hhash]
  have hds : ((magic ++ enc a) ++ hash (magic ++ enc a)).length - 32 =
      (magic ++ enc a).length := by
    rw [hfl]
    omega
  have htdata : ((magic ++ enc a) ++ hash (magic ++ enc a)).take
      ((magic ++ enc a).length) = magic ++ enc a := List.take_left _ _
  have hddata : ((magic ++ enc a) ++ hash (magic ++ enc a)).drop
      ((magic ++ enc a).length) = hash (magic ++ enc a) := List.drop_left _ _
  have hplen : (magic ++ enc a).length = 4 + (enc a).length := by
    rw [List.length_append, hm]
  have htake4 : (magic ++ enc a).take 4 = magic := List.take_left' hm
  have hdrop4 : (magic ++ enc a).drop 4 = enc a := List.drop_left' hm
  refine ⟨?_, ?_, ?_⟩
  · simp only [addrDBWrite]
    rw [addrDBRead, if_neg (by rw [hfl]; omega)]
    simp only [hds, htdata, hddata]
    rw [if_neg (by simp), if_neg (by rw [hplen]; omega),
      if_neg (by rw [htake4]; simp), hdrop4, hdecenc]
  · intro hne
    simp only [addrDBWrite]
    rw [addrDBRead, if_neg (by rw [hfl]; omega)]
    simp only [hds, htdata, hddata]
    rw [if_neg (by simp), if_neg (by rw [hplen]; omega),
      if_pos (by rw [htake4]; exact hne.symm)]
  · intro payloadC hlen hch
    have hflC : (payloadC ++ hash (magic ++ enc a)).length =
        (magic ++ enc a).length + 32 := by
      rw [List.length_append, hhash, hlen]
    have hdsC : (payloadC ++ hash (magic ++ enc a)).length - 32 =
        (magic ++ enc a).length := by
      rw [hflC]
      omega
    have htdataC : (payloadC ++ hash (magic ++ enc a)).take
        ((magic ++ enc a).length) = payloadC := List.take_left' hlen
    have hddataC : (payloadC ++ hash (magic ++ enc a)).drop
        ((magic ++ enc a).length) = hash (magic ++ enc a) :=
      List.drop_left' hlen
    rw [addrDBRead, if_neg (by rw [hflC]; omega)]
    simp only [hdsC, htdataC, hddataC]
    rw [if_pos (fun h => hch (h.symm))]

/-- Witness for C7 with a concrete one-byte snapshot serializer and a
sum-based 32-byte digest. -/
theorem addrDB_roundTrip_witness :
    addrDBRead [1, 2, 3, 4] (fun l => List.replicate 31 0 ++ [l.sum % 256])
        (fun l => match l with | [b] => some b | _ => none)
        (addrDBWrite [1, 2, 3, 4]
          (fun l => List.replicate 31 0 ++ [l.sum % 256]) (fun n => [n % 256])
          5) = Except.ok 5 ∧
    ([9, 9, 9, 9] ≠ [1, 2, 3, 4] →
      addrDBRead [9, 9, 9, 9] (fun l => List.replicate 31 0 ++ [l.sum % 256])
        (fun l => match l with | [b] => some b | _ => none)
        (addrDBWrite [1, 2, 3, 4]
          (fun l => List.replicate 31 0 ++ [l.sum % 256]) (fun n => [n % 256])
          5) = Except.error AddrDBError.magicMismatch) ∧
    (∀ payloadC,
      payloadC.length = ([1, 2, 3, 4] ++ (fun n => [n % 256]) 5).length →
      (fun l => List.replicate 31 0 ++ [l.sum % 256]) payloadC ≠
        (fun l => List.replicate 31 0 ++ [l.sum % 256])
          ([1, 2, 3, 4] ++ (fun n => [n % 256]) 5) →
      addrDBRead [1, 2, 3, 4] (fun l => List.replicate 31 0 ++ [l.sum % 256])
        (fun l => match l with | [b] => some b | _ => none)
        (payloadC ++ (fun l => List.replicate 31 0 ++ [l.sum % 256])
          ([1, 2, 3, 4] ++ (fun n => [n % 256]) 5)) =
        Except.error AddrDBError.checksumMismatch) :=
  addrDB_roundTrip [1, 2, 3, 4] [9, 9, 9, 9]
    (fun l => List.replicate 31 0 ++ [l.sum % 256]) (fun n => [n % 256])
    (fun l => match l with | [b] => some b | _ => none) 5
    (by decide) (by decide)
    (by intro l; simp)
    (by decide)

/-! ## Eviction policy (CConnman::AttemptToEvictConnection) -/

/-- The per-peer fields the eviction policy reads (`CNode` members): the
node id, the netgroup (`addr.GetGroup()`, as an abstract id), the minimum
observed ping time, the connection time, and the whitelist, inbound and
disconnect flags. -/
structure EvictPeer where
  nid : Nat
  group : Nat
  nMinPingUsecTime : Int
  nTimeConnected : Int
  fWhitelisted : Bool
  fInbound : Bool
  fDisconnect : Bool
deriving DecidableEq

instance : Inhabited EvictPeer := ⟨⟨0, 0, 0, 0, false, false, false⟩⟩

/-- The initial candidate scan (net.cpp:1028-1036): inbound peers that are
neither whitelisted nor already disconnecting, in `vNodes` order. -/
def evictionCandidates (vNodes : List EvictPeer) : List EvictPeer :=
  vNodes.filter (fun n => !n.fWhitelisted && n.fInbound && !n.fDisconnect)

/-- The candidate order produced by `std::sort` with `CompareNetGroupKeyed`
(net.cpp:991-1021; ascending in the keyed netgroup hash).  The hash — SHA256
over the peer's group and a per-process random secret, neither under src/ —
enters the model as the parameter `hkey`; peers in the same group share the
hash value.  `std::sort` is unstable, so on equal keys it may produce any
order; the (stable) insertion sort realizes one admissible order, and the
properties proved about the stages below compare key values, making them
order-insensitive. -/
def netGroupKeyedSorted (hkey : Nat → Nat) (l : List EvictPeer) :
    List EvictPeer :=
  List.insertionSort (fun a b => hkey a.group ≤ hkey b.group) l

/-- Stage 2 (net.cpp:1046-1047): erase the last `min 4 size` entries of the
keyed-hash-sorted candidates — the kept prefix. -/
def protectNetGroup (hkey : Nat → Nat) (l : List EvictPeer) : List EvictPeer :=
  (netGroupKeyedSorted hkey l).take
    ((netGroupKeyedSorted hkey l).length -
      min 4 (netGroupKeyedSorted hkey l).length)

/-- The (up to) 4 peers stage 2 protects: the erased suffix, holding the
greatest keyed netgroup hashes. -/
def protectedNetGroup4 (hkey : Nat → Nat) (l : List EvictPeer) :
    List EvictPeer :=
  (netGroupKeyedSorted hkey l).drop
    ((netGroupKeyedSorted hkey l).length -
      min 4 (netGroupKeyedSorted hkey l).length)

/-- The order produced by `std::sort` with `ReverseCompareNodeMinPingTime`
(net.cpp:981-984): descending in the minimum observed ping time. -/
def minPingSorted (l : List EvictPeer) : List EvictPeer :=
  List.insertionSort (fun a b => b.nMinPingUsecTime ≤ a.nMinPingUsecTime) l

/-- Stage 3 (net.cpp:1053-1054): erase the last `min 8 size` entries of the
ping-descending candidates — the kept prefix. -/
def protectPing (l : List EvictPeer) : List EvictPeer :=
  (minPingSorted l).take
    ((minPingSorted l).length - min 8 (minPingSorted l).length)

/-- The (up to) 8 peers stage 3 protects: the erased suffix, holding the
lowest minimum ping times. -/
def protectedPing8 (l : List EvictPeer) : List EvictPeer :=
  (minPingSorted l).drop
    ((minPingSorted l).length - min 8 (minPingSorted l).length)

/-- The order produced by `std::sort` with `ReverseCompareNodeTimeConnected`
(net.cpp:986-989): descending in connection time, most recently connected
first. -/
def timeConnectedSorted (l : List EvictPeer) : List EvictPeer :=
  List.insertionSort (fun a b => b.nTimeConnected ≤ a.nTimeConnected) l

/-- Stage 4 (net.cpp:1060-1061): erase the last `size / 2` entries of the
time-descending candidates — the kept (younger) prefix. -/
def protectHalf (l : List EvictPeer) : List EvictPeer :=
  (timeConnectedSorted l).take
    ((timeConnectedSorted l).length - (timeConnectedSorted l).length / 2)

/-- The peers stage 4 protects: the erased suffix, the longest-connected
half. -/
def protectedOldHalf (l : List EvictPeer) : List EvictPeer :=
  (timeConnectedSorted l).drop
    ((timeConnectedSorted l).length - (timeConnectedSorted l).length / 2)

/-- The accumulator of the stage-5 scan (net.cpp:1067-1081): the
`mapAddrCounts` group map and the best group's id, member count and first
member's connection time. -/
structure GroupWinner where
  mapAC : Nat → List EvictPeer
  naMost : Nat
  nMost : Nat
  nMostTime : Int

/-- One iteration of the stage-5 loop: append the node to its group's member
vector and take over the lead when the group became strictly larger, or
equally large with a younger first member (`grouptime`, the group's first
member in scan order, the scan order being youngest-first). -/
def groupStep (acc : GroupWinner) (node : EvictPeer) : GroupWinner :=
  let members := acc.mapAC node.group ++ [node]
  let mapAC := fun g => if g = node.group then members else acc.mapAC g
  let grouptime := (members.headD default).nTimeConnected
  let groupsize := members.length
  if groupsize > acc.nMost ∨ (groupsize = acc.nMost ∧ grouptime > acc.nMostTime)
  then ⟨mapAC, node.group, groupsize, grouptime⟩
  else ⟨mapAC, acc.naMost, acc.nMost, acc.nMostTime⟩

/-- Stage 5 (net.cpp:1067-1084): reduce the candidates to the network group
with the most connections (ties to the youngest group). -/
def mostConnectedGroup (l : List EvictPeer) : List EvictPeer :=
  let w := l.foldl groupStep ⟨fun _ => [], 0, 0, 0⟩
  w.mapAC w.naMost

/-- The candidates that reach stage 5: survivors of the three protection
erasures applied to the eligible peers. -/
def survivorsHalf (hkey : Nat → Nat) (vNodes : List EvictPeer) :
    List EvictPeer :=
  protectHalf (protectPing (protectNetGroup hkey (evictionCandidates vNodes)))

/-- The most-connected netgroup among the stage-5 candidates. -/
def finalGroup (hkey : Nat → Nat) (vNodes : List EvictPeer) : List EvictPeer :=
  mostConnectedGroup (survivorsHalf hkey vNodes)

/-- Embedding of `CConnman::AttemptToEvictConnection` (net.cpp:1023-1096): the staged
narrowing with an early `false` whenever a stage empties the candidates; at
the end, no eviction when only one candidate remains in the most-connected
group and the caller did not prefer the new connection, else the first
remaining candidate of that group is marked for disconnect.  The model
returns the marked peer (`some p` for C++ `true` plus the single
`fDisconnect` write; `none` for `false`). -/
def attemptToEvictConnection (hkey : Nat → Nat) (vNodes : List EvictPeer)
    (fPreferNewConnection : Bool) : Option EvictPeer :=
  if evictionCandidates vNodes = [] then none
  else if protectNetGroup hkey (evictionCandidates vNodes) = [] then none
  else if protectPing (protectNetGroup hkey (evictionCandidates vNodes)) = []
    then none
  else if survivorsHalf hkey vNodes = [] then none
  else if (finalGroup hkey vNodes).length ≤ 1 ∧ fPreferNewConnection = false
    then none
  else (finalGroup hkey vNodes).head?

theorem netGroupKeyedSorted_sorted (hkey : Nat → Nat) (l : List EvictPeer) :
    List.Sorted (fun a b => hkey a.group ≤ hkey b.group)
      (netGroupKeyedSorted hkey l) := by
  haveI : IsTotal EvictPeer (fun a b => hkey a.group ≤ hkey b.group) :=
    ⟨fun a b => Nat.le_total _ _⟩
  haveI : IsTrans EvictPeer (fun a b => hkey a.group ≤ hkey b.group) :=
    ⟨fun _ _ _ hab hbc => le_trans hab hbc⟩
  exact List.sorted_insertionSort _ l

theorem minPingSorted_sorted (l : List EvictPeer) :
    List.Sorted (fun a b => b.nMinPingUsecTime ≤ a.nMinPingUsecTime)
      (minPingSorted l) := by
  haveI : IsTotal EvictPeer
      (fun a b => b.nMinPingUsecTime ≤ a.nMinPingUsecTime) :=
    ⟨fun a b => le_total _ _⟩
  haveI : IsTrans EvictPeer
      (fun a b => b.nMinPingUsecTime ≤ a.nMinPingUsecTime) :=
    ⟨fun _ _ _ hab hbc => le_trans hbc hab⟩
  exact List.sorted_insertionSort _ l

theorem timeConnectedSorted_sorted (l : List EvictPeer) :
    List.Sorted (fun a b => b.nTimeConnected ≤ a.nTimeConnected)
      (timeConnectedSorted l) := by
  haveI : IsTotal EvictPeer (fun a b => b.nTimeConnected ≤ a.nTimeConnected) :=
    ⟨fun a b => le_total _ _⟩
  haveI : IsTrans EvictPeer (fun a b => b.nTimeConnected ≤ a.nTimeConnected) :=
    ⟨fun _ _ _ hab hbc => le_trans hbc hab⟩
  exact List.sorted_insertionSort _ l

/-- In a sorted list, every element of the kept prefix relates to every
element of the dropped suffix. -/
theorem sorted_take_drop_rel {α : Type} {R : α → α → Prop} {l : List α}
    (h : List.Sorted R l) (k : Nat) (p q : α)
    (hp : p ∈ l.take k) (hq : q ∈ l.drop k) : R p q := by
  rw [← List.take_append_drop k l] at h
  exact (List.pairwise_append.mp h).2.2 p hp q hq

/-- When the mapped keys of a list are all distinct, elements of the prefix
and of the suffix never share a key. -/
theorem nodup_map_take_drop_ne {α β : Type} (f : α → β) (l : List α) (k : Nat)
    (hnd : (l.map f).Nodup) {p q : α}
    (hp : p ∈ l.take k) (hq : q ∈ l.drop k) : f p ≠ f q := by
  rw [← List.take_append_drop k l, List.map_append] at hnd
  have hdisj := List.disjoint_of_nodup_append hnd
  intro he
  exact hdisj (List.mem_map_of_mem f hp) (he ▸ List.mem_map_of_mem f hq)

theorem nodup_map_perm {α β : Type} (f : α → β) {l l' : List α}
    (hperm : l'.Perm l) (hnd : (l.map f).Nodup) : (l'.map f).Nodup :=
  ((hperm.map f).nodup_iff).mpr hnd

theorem nodup_map_take {α β : Type} (f : α → β) (l : List α) (k : Nat)
    (hnd : (l.map f).Nodup) : ((l.take k).map f).Nodup :=
  List.Nodup.sublist (List.Sublist.map f (List.take_sublist k l)) hnd

/-- The group map built by the stage-5 scan holds, for every group, exactly
the candidates of that group in scan order. -/
theorem foldl_groupStep_mapAC (g : Nat) :
    ∀ (l : List EvictPeer) (acc : GroupWinner),
    (l.foldl groupStep acc).mapAC g =
      acc.mapAC g ++ l.filter (fun n => n.group == g) := by
  intro l
  induction l with
  | nil => intro acc; simp
  | cons n rest ih =>
      intro acc
      rw [List.foldl_cons, ih]
      have hstep : (groupStep acc n).mapAC g =
          acc.mapAC g ++ if n.group == g then [n] else [] := by
        simp only [groupStep]
        split
        · by_cases hg : g = n.group
          · simp [hg]
          · have hg' : ¬ n.group = g := fun h => hg h.symm
            simp [hg, hg']
        · by_cases hg : g = n.group
          · simp [hg]
          · have hg' : ¬ n.group = g := fun h => hg h.symm
            simp [hg, hg']
      rw [hstep, List.filter_cons]
      by_cases hg : (n.group == g) = true
      · simp [hg]
      · simp [hg]

/-- The stage-5 winner invariant: once a group has taken the lead, the
winner's member list is nonempty. -/
def winnerInv (acc : GroupWinner) : Prop :=
  acc.nMost ≠ 0 ∧ acc.mapAC acc.naMost ≠ []

theorem groupStep_winnerInv (acc : GroupWinner) (n : EvictPeer)
    (h : winnerInv acc) : winnerInv (groupStep acc n) := by
  simp only [groupStep]
  split
  · exact ⟨by simp, by simp⟩
  · refine ⟨h.1, ?_⟩
    by_cases hg : acc.naMost = n.group
    · simp [hg]
    · simpa [hg] using h.2

theorem foldl_groupStep_winnerInv :
    ∀ (l : List EvictPeer) (acc : GroupWinner), winnerInv acc →
    winnerInv (l.foldl groupStep acc) := by
  intro l
  induction l with
  | nil => intro acc h; exact h
  | cons n rest ih =>
      intro acc h
      rw [List.foldl_cons]
      exact ih _ (groupStep_winnerInv acc n h)

theorem mostConnectedGroup_ne_nil (l : List EvictPeer) (h : l ≠ []) :
    mostConnectedGroup l ≠ [] := by
  rcases l with _ | ⟨n, rest⟩
  · exact absurd rfl h
  · have h1 : winnerInv (groupStep ⟨fun _ => [], 0, 0, 0⟩ n) := by
      simp only [groupStep]
      split
      · exact ⟨by simp, by simp⟩
      · rename_i hc
        exact absurd (Or.inl (by simp)) hc
    have h2 := foldl_groupStep_winnerInv rest _ h1
    simpa only [mostConnectedGroup, List.foldl_cons] using h2.2

/-- Once the stage-5 candidates are known nonempty, the whole algorithm
reduces to its final stage. -/
theorem attemptToEvict_unfold (hkey : Nat → Nat) (vNodes : List EvictPeer)
    (fPref : Bool) (h : survivorsHalf hkey vNodes ≠ []) :
    attemptToEvictConnection hkey vNodes fPref =
      if (finalGroup hkey vNodes).length ≤ 1 ∧ fPref = false then none
      else (finalGroup hkey vNodes).head? := by
  have h3 : protectPing (protectNetGroup hkey (evictionCandidates vNodes)) ≠
      [] := by
    intro he
    apply h
    rw [survivorsHalf, he]
    rfl
  have h2 : protectNetGroup hkey (evictionCandidates vNodes) ≠ [] := by
    intro he
    apply h3
    rw [he]
    rfl
  have h1 : evictionCandidates vNodes ≠ [] := by
    intro he
    apply h2
    rw [he]
    rfl
  rw [attemptToEvictConnection, if_neg h1, if_neg h2, if_neg h3, if_neg h]

/-- C6: once stage 5 is reached (the survivor set is nonempty), the final
stage behaves as stated: with at most one candidate left in the
most-connected netgroup and `fPreferNewConnection = false`, nothing is
evicted and no candidate is reported; otherwise the first remaining
candidate of that group — the head of the group in the retained order, the
candidates being ordered by connection time (youngest first) — is marked and
reported. -/
theorem attemptToEvict_finalStage (hkey : Nat → Nat) (vNodes : List EvictPeer)
    (h : survivorsHalf hkey vNodes ≠ []) :
    (∀ fPref, (finalGroup hkey vNodes).length ≤ 1 → fPref = false →
      attemptToEvictConnection hkey vNodes fPref = none) ∧
    finalGroup hkey vNodes ≠ [] ∧
    (∀ fPref, 2 ≤ (finalGroup hkey vNodes).length ∨ fPref = true →
      attemptToEvictConnection hkey vNodes fPref =
        (finalGroup hkey vNodes).head?) := by
  have hgne : finalGroup hkey vNodes ≠ [] := by
    rw [finalGroup]
    exact mostConnectedGroup_ne_nil _ h
  refine ⟨?_, hgne, ?_⟩
  · intro fPref hlen hpref
    rw [attemptToEvict_unfold hkey vNodes fPref h, if_pos ⟨hlen, hpref⟩]
  · intro fPref hor
    rw [attemptToEvict_unfold hkey vNodes fPref h]
    rcases hor with hlen | hpref
    · rw [if_neg (fun hc => absurd hc.1 (by omega))]
    · rw [if_neg (by simp [hpref])]

/-- A set of thirteen eligible inbound peers in thirteen distinct netgroups,
with distinct pings and connection times. -/
def egPeers13 : List EvictPeer :=
  (List.range 13).map (fun i => ⟨i, i, (i : Int), (i : Int), false, true, false⟩)

/-- Witness for C6 on the concrete peer set. -/
theorem attemptToEvict_finalStage_witness :
    (∀ fPref, (finalGroup id egPeers13).length ≤ 1 → fPref = false →
      attemptToEvictConnection id egPeers13 fPref = none) ∧
    finalGroup id egPeers13 ≠ [] ∧
    (∀ fPref, 2 ≤ (finalGroup id egPeers13).length ∨ fPref = true →
      attemptToEvictConnection id egPeers13 fPref =
        (finalGroup id egPeers13).head?) :=
  attemptToEvict_finalStage id egPeers13 (by decide)

/-- Counterexample to C1 as stated: thirteen eligible inbound peers (size
greater than 12) in pairwise-distinct netgroups, and
`fPreferNewConnection = false`: the function reports no candidate and evicts
nobody, because after the protections a single candidate remains, alone in
its netgroup, and the final stage declines to evict. -/
theorem attemptToEvict_thirteen_noEvict :
    12 < (evictionCandidates egPeers13).length ∧
    attemptToEvictConnection id egPeers13 false = none := by
  constructor
  · decide
  · decide

/-- C1 (amended): for every peer set whose eligible (inbound,
non-whitelisted, non-disconnecting) candidates number more than 12 and carry
distinct node ids, and with `fPreferNewConnection = true` (the proviso the
counterexample forces: as stated, with `false`, a single-member final group
is not evicted), `AttemptToEvictConnection` succeeds and marks exactly one
peer; the marked peer is eligible (so never whitelisted), is none of the 4
keyed-netgroup-protected peers (its keyed hash is at most each of theirs),
none of the 8 protected lowest-ping peers (its minimum ping is at least each
of theirs), and not in the protected older half (it connected no earlier
than any of them). -/
theorem attemptToEvict_protections (hkey : Nat → Nat) (vNodes : List EvictPeer)
    (h13 : 12 < (evictionCandidates vNodes).length)
    (hnd : ((evictionCandidates vNodes).map EvictPeer.nid).Nodup) :
    ∃ p, attemptToEvictConnection hkey vNodes true = some p ∧
      p ∈ evictionCandidates vNodes ∧
      p.fInbound = true ∧ p.fWhitelisted = false ∧ p.fDisconnect = false ∧
      (∀ q ∈ protectedNetGroup4 hkey (evictionCandidates vNodes),
        hkey p.group ≤ hkey q.group ∧ p.nid ≠ q.nid) ∧
      (∀ q ∈ protectedPing8 (protectNetGroup hkey (evictionCandidates vNodes)),
        q.nMinPingUsecTime ≤ p.nMinPingUsecTime ∧ p.nid ≠ q.nid) ∧
      (∀ q ∈ protectedOldHalf
          (protectPing (protectNetGroup hkey (evictionCandidates vNodes))),
        q.nTimeConnected ≤ p.nTimeConnected ∧ p.nid ≠ q.nid) := by
  have hslen : (netGroupKeyedSorted hkey (evictionCandidates vNodes)).length =
      (evictionCandidates vNodes).length :=
    (List.perm_insertionSort _ _).length_eq
  have hc2len : (protectNetGroup hkey (evictionCandidates vNodes)).length =
      (evictionCandidates vNodes).length - 4 := by
    rw [protectNetGroup, List.length_take, hslen]
    omega
  have hps : (minPingSorted (protectNetGroup hkey
      (evictionCandidates vNodes))).length =
      (protectNetGroup hkey (evictionCandidates vNodes)).length :=
    (List.perm_insertionSort _ _).length_eq
  rw [hc2len] at hps
  have hc3len : (protectPing (protectNetGroup hkey
      (evictionCandidates vNodes))).length =
      (evictionCandidates vNodes).length - 12 := by
    rw [protectPing, List.length_take, hps]
    omega
  have hts : (timeConnectedSorted (protectPing (protectNetGroup hkey
      (evictionCandidates vNodes)))).length =
      (protectPing (protectNetGroup hkey (evictionCandidates vNodes))).length :=
    (List.perm_insertionSort _ _).length_eq
  rw [hc3len] at hts
  have hsne : survivorsHalf hkey vNodes ≠ [] := by
    apply List.length_pos.mp
    rw [survivorsHalf, protectHalf, List.length_take, hts]
    omega
  -- the algorithm reaches the final stage and returns the group's head
  have hgne : finalGroup hkey vNodes ≠ [] := by
    rw [finalGroup]
    exact mostConnectedGroup_ne_nil _ hsne
  obtain ⟨p, grest, hfg0⟩ : ∃ p grest, finalGroup hkey vNodes = p :: grest := by
    rcases hg : finalGroup hkey vNodes with _ | ⟨p, grest⟩
    · exact absurd hg hgne
    · exact ⟨p, grest, rfl⟩
  refine ⟨p, ?_, ?_⟩
  · rw [attemptToEvict_unfold hkey vNodes true hsne, if_neg (by simp), hfg0]
    rfl
  -- the marked peer sits in the most-connected group, hence among the
  -- survivors of every protection stage
  have hpg : p ∈ finalGroup hkey vNodes := by
    rw [hfg0]
    exact List.mem_cons_self p grest
  have hfg : finalGroup hkey vNodes = (survivorsHalf hkey vNodes).filter
      (fun n => n.group == ((survivorsHalf hkey vNodes).foldl groupStep
        ⟨fun _ => [], 0, 0, 0⟩).naMost) := by
    simp only [finalGroup, mostConnectedGroup]
    rw [foldl_groupStep_mapAC]
    simp
  have hpsurv : p ∈ survivorsHalf hkey vNodes := by
    rw [hfg] at hpg
    exact (List.mem_filter.mp hpg).1
  have hpts : p ∈
      (timeConnectedSorted (protectPing (protectNetGroup hkey
        (evictionCandidates vNodes)))).take
        ((timeConnectedSorted (protectPing (protectNetGroup hkey
          (evictionCandidates vNodes)))).length -
          (timeConnectedSorted (protectPing (protectNetGroup hkey
            (evictionCandidates vNodes)))).length / 2) := by
    rw [survivorsHalf, protectHalf] at hpsurv
    exact hpsurv
  have hpc3 : p ∈
      protectPing (protectNetGroup hkey (evictionCandidates vNodes)) :=
    (List.perm_insertionSort _ _).mem_iff.mp (List.take_subset _ _ hpts)
  have hpps : p ∈
      (minPingSorted (protectNetGroup hkey (evictionCandidates vNodes))).take
        ((minPingSorted (protectNetGroup hkey
          (evictionCandidates vNodes))).length -
          min 8 (minPingSorted (protectNetGroup hkey
            (evictionCandidates vNodes))).length) := by
    rw [protectPing] at hpc3
    exact hpc3
  have hpc2 : p ∈
      protectNetGroup hkey (evictionCandidates vNodes) :=
    (List.perm_insertionSort _ _).mem_iff.mp (List.take_subset _ _ hpps)
  have hpgs : p ∈
      (netGroupKeyedSorted hkey (evictionCandidates vNodes)).take
        ((netGroupKeyedSorted hkey (evictionCandidates vNodes)).length -
          min 4 (netGroupKeyedSorted hkey (evictionCandidates vNodes)).length)
      := by
    rw [protectNetGroup] at hpc2
    exact hpc2
  have hpcand : p ∈
      evictionCandidates vNodes :=
    (List.perm_insertionSort _ _).mem_iff.mp (List.take_subset _ _ hpgs)
  -- distinct node ids survive each permutation and truncation
  have hnd1 : ((netGroupKeyedSorted hkey (evictionCandidates vNodes)).map
      EvictPeer.nid).Nodup :=
    nodup_map_perm _ (List.perm_insertionSort _ _) hnd
  have hnd2 : ((protectNetGroup hkey (evictionCandidates vNodes)).map
      EvictPeer.nid).Nodup := by
    rw [protectNetGroup]
    exact nodup_map_take _ _ _ hnd1
  have hnd3 : ((minPingSorted (protectNetGroup hkey
      (evictionCandidates vNodes))).map EvictPeer.nid).Nodup :=
    nodup_map_perm _ (List.perm_insertionSort _ _) hnd2
  have hnd4 : ((protectPing (protectNetGroup hkey
      (evictionCandidates vNodes))).map EvictPeer.nid).Nodup := by
    rw [protectPing]
    exact nodup_map_take _ _ _ hnd3
  have hnd5 : ((timeConnectedSorted (protectPing (protectNetGroup hkey
      (evictionCandidates vNodes)))).map EvictPeer.nid).Nodup :=
    nodup_map_perm _ (List.perm_insertionSort _ _) hnd4
  -- eligibility flags of the marked peer
  have hflags := (List.mem_filter.mp hpcand).2
  simp only [Bool.and_eq_true, Bool.not_eq_true'] at hflags
  refine ⟨hpcand, hflags.1.2, hflags.1.1, hflags.2, ?_, ?_, ?_⟩
  · intro q hq
    rw [protectedNetGroup4] at hq
    exact ⟨sorted_take_drop_rel (netGroupKeyedSorted_sorted hkey _) _ _ q
        hpgs hq,
      nodup_map_take_drop_ne EvictPeer.nid _ _ hnd1 hpgs hq⟩
  · intro q hq
    rw [protectedPing8] at hq
    exact ⟨sorted_take_drop_rel (minPingSorted_sorted _) _ _ q hpps hq,
      nodup_map_take_drop_ne EvictPeer.nid _ _ hnd3 hpps hq⟩
  · intro q hq
    rw [protectedOldHalf] at hq
    exact ⟨sorted_take_drop_rel (timeConnectedSorted_sorted _) _ _ q hpts hq,
      nodup_map_take_drop_ne EvictPeer.nid _ _ hnd5 hpts hq⟩

/-- Witness for C1's amended statement on the concrete thirteen-peer set
with the identity keyed hash. -/
theorem attemptToEvict_protections_witness :
    ∃ p, attemptToEvictConnection id egPeers13 true = some p ∧
      p ∈ evictionCandidates egPeers13 ∧
      p.fInbound = true ∧ p.fWhitelisted = false ∧ p.fDisconnect = false ∧
      (∀ q ∈ protectedNetGroup4 id (evictionCandidates egPeers13),
        id p.group ≤ id q.group ∧ p.nid ≠ q.nid) ∧
      (∀ q ∈ protectedPing8 (protectNetGroup id (evictionCandidates egPeers13)),
        q.nMinPingUsecTime ≤ p.nMinPingUsecTime ∧ p.nid ≠ q.nid) ∧
      (∀ q ∈ protectedOldHalf
          (protectPing (protectNetGroup id (evictionCandidates egPeers13))),
        q.nTimeConnected ≤ p.nTimeConnected ∧ p.nid ≠ q.nid) :=
  attemptToEvict_protections id egPeers13 (by decide) (by decide)

end Zen
